import Mathlib

/-!
Shallow embedding of the batch PDF-extraction pipeline of `src/App.tsx`.

The program is a single React component.  The parts relevant to the
specification's claims are:

* the `FileStatus` record and the `BatchState` enumeration (App.tsx:15-24);
* `updateHistory` / `clearHistory` (App.tsx:47-66), which keep an in-memory
  history list in sync with a browser key-value store, swallowing
  persistence failures;
* `handleFiles` (App.tsx:94-112), which filters a selection event to PDF
  files, builds records with a deterministic id, and appends those whose
  id is not already in the queue;
* `processBatch` (App.tsx:134-188), the sequential pipeline: it iterates
  the queue snapshot, skips non-pending records, renders and recognises
  each page of a pending record, accumulates `text.trim() + "\n\n---\n\n"`
  per page, and on success stores `fullText.trim()`; failures are caught
  per file; afterwards the names of all success records are merged into
  the history and the batch state becomes `done`;
* the start-batch button (App.tsx:287-288), disabled while no pending file
  exists or the batch state is `processing`;
* `handleExportAll` (App.tsx:206-223), which concatenates the success
  records into delimited blocks.

External collaborators (PDF renderer, recognition service, browser
storage) are modelled as oracles: an outcome per file describing whether
the render call fails, and per page whether recognition returns text or
throws; a boolean describing whether the key-value store throws.
-/

/-- Status of one file record (`FileStatus.status`, App.tsx:18). -/
inductive Status where
  | pending
  | processing
  | success
  | error
deriving DecidableEq, Repr

/-- Batch state (`BatchState`, App.tsx:24). -/
inductive BatchState where
  | idle
  | processing
  | done
deriving DecidableEq, Repr

/-- The observable attributes of an uploaded browser `File` used by the
program: name, last-modified timestamp, byte size and MIME type. -/
structure FileMeta where
  name : String
  lastModified : Nat
  size : Nat
  type : String
deriving DecidableEq, Repr

/-- Deterministic record id (App.tsx:99):
`${file.name}-${file.lastModified}-${file.size}`. -/
def fileId (f : FileMeta) : String :=
  f.name ++ "-" ++ toString f.lastModified ++ "-" ++ toString f.size

/-- One queue entry (`FileStatus`, App.tsx:15-22). -/
structure FileStatus where
  id : String
  file : FileMeta
  status : Status
  message : String
  extractedText : Option String
  pageProgress : Option (Nat × Nat)
deriving DecidableEq, Repr

/-- Fresh record built by `handleFiles` (App.tsx:98-103). -/
def mkRecord (f : FileMeta) : FileStatus :=
  { id := fileId f
    file := f
    status := .pending
    message := "ממתין לעיבוד"
    extractedText := none
    pageProgress := none }

/-- Outcome of recognising one rendered page: the text returned by the
recognition call, or the message of the error it throws
(`extractTextFromImage` / the per-page canvas work, App.tsx:153-169). -/
abbrev PageResult := Except String String

/-- Outcome of processing one file's payload: either the render call
(`getDocument`, App.tsx:148-149) throws with a message, or it yields a
document whose pages each have a `PageResult`.  The length of the list is
`pdf.numPages`. -/
abbrev FileOutcome := Except String (List PageResult)

/-- JavaScript `String.prototype.trim`: remove leading and trailing
whitespace.  Defined structurally over the character list so that
concrete runs evaluate inside the kernel. -/
def jsTrim (s : String) : String :=
  ⟨((s.data.dropWhile Char.isWhitespace).reverse.dropWhile Char.isWhitespace).reverse⟩

/-- Message of the first failing page, if any (the page loop of
App.tsx:153-170 stops at the first throw). -/
def firstFailure : List PageResult → Option String
  | [] => none
  | .ok _ :: rest => firstFailure rest
  | .error m :: _ => some m

/-- Message of the throw that aborts a file's processing, if any. -/
def outcomeFailMsg : FileOutcome → Option String
  | .error m => some m
  | .ok rs => firstFailure rs

/-- The page loop of `processBatch` (App.tsx:153-172) acting on one
record: before page `i` is processed its `pageProgress` and `message` are
updated; a page throw ends the file in `error` with the thrown message;
after the last page the record becomes `success` with
`extractedText = fullText.trim()`, where `fullText` accumulated
`text.trim() + "\n\n---\n\n"` for every page. -/
def pageLoop (total : Nat) : Nat → List PageResult → FileStatus → String → FileStatus
  | _, [], r, acc =>
      { r with status := .success, extractedText := some (jsTrim acc),
               message := "העיבוד הושלם בהצלחה" }
  | i, res :: rest, r, acc =>
      let r1 := { r with pageProgress := some (i, total),
                         message := "מעבד עמוד " ++ toString i ++ " מתוך " ++ toString total }
      match res with
      | .ok t => pageLoop total (i + 1) rest r1 (acc ++ jsTrim t ++ "\n\n---\n\n")
      | .error m => { r1 with status := .error, message := m }

/-- Net effect of the try/catch body of `processBatch` (App.tsx:144-179)
on a record whose file has the given outcome: the record first becomes
`processing`, then either the render throw is caught (terminal `error`)
or the page loop runs. -/
def applyOutcome (oc : FileOutcome) (r : FileStatus) : FileStatus :=
  let r0 := { r with status := .processing, message := "מתחיל עיבוד..." }
  match oc with
  | .error m => { r0 with status := .error, message := m }
  | .ok pages => pageLoop pages.length 1 pages r0 ""

/-- The `for (const fileStatus of fileQueue)` loop of `processBatch`
(App.tsx:141-180): the first argument is the remaining snapshot, the
second the working copy `processedQueue`.  For each snapshot record that
is `pending`, every item of the working copy whose id matches is updated
with that file's outcome (the chain of `processedQueue.map` calls at
App.tsx:144, 154, 172, 176 composes to `applyOutcome`). -/
def batchLoop (o : FileMeta → FileOutcome) : List FileStatus → List FileStatus → List FileStatus
  | [], pq => pq
  | r :: rest, pq =>
      if r.status = .pending then
        batchLoop o rest
          (pq.map fun item => if item.id = r.id then applyOutcome (o r.file) item else item)
      else
        batchLoop o rest pq

/-- Ids of the snapshot records the loop actually processes, mirroring
the `continue` at App.tsx:142. -/
def batchVisited : List FileStatus → List String
  | [] => []
  | r :: rest =>
      if r.status = .pending then r.id :: batchVisited rest else batchVisited rest

/-- The queue produced by one run of the pipeline loop over the snapshot
taken when `processBatch` begins (`let processedQueue = [...fileQueue]`,
App.tsx:139). -/
def processBatch (o : FileMeta → FileOutcome) (q : List FileStatus) : List FileStatus :=
  batchLoop o q q

/-- In-memory history plus the persisted copy under the
`pdfConverterHistory` key (`none` models an absent key). -/
structure HistStore where
  mem : List String
  persisted : Option (List String)
deriving DecidableEq, Repr

/-- `Array.from(new Set(l))` (App.tsx:49): keep the first occurrence of
each element, in order.  The `seen` accumulator holds the elements
already emitted. -/
def dedupFirstAux (seen : List String) : List String → List String
  | [] => []
  | a :: l =>
      if a ∈ seen then dedupFirstAux seen l
      else a :: dedupFirstAux (a :: seen) l

/-- Insertion-ordered de-duplication, as JavaScript `Set` iteration. -/
def dedupFirst (l : List String) : List String := dedupFirstAux [] l

/-- `Array.from(new Set([...prevHistory, ...newFileNames]))` (App.tsx:49). -/
def mergeNames (h names : List String) : List String := dedupFirst (h ++ names)

/-- `updateHistory` (App.tsx:47-57): the merged list always becomes the
in-memory history; `localStorage.setItem` sits in an inner try whose
failure (`pfail`) is logged and swallowed, so only the persisted copy is
affected by it. -/
def updateHistory (pfail : Bool) (s : HistStore) (names : List String) : HistStore :=
  let merged := mergeNames s.mem names
  { mem := merged, persisted := if pfail then s.persisted else some merged }

/-- `clearHistory` (App.tsx:59-66): `setHistory([])` runs inside the try
*after* `localStorage.removeItem`, so a throwing remove (`pfail`) skips
the in-memory clear as well. -/
def clearHistory (pfail : Bool) (s : HistStore) : HistStore :=
  if pfail then s else { mem := [], persisted := none }

/-- The component state the claims are about: queue, batch state,
history. -/
structure AppState where
  fileQueue : List FileStatus
  batchState : BatchState
  hist : HistStore
deriving DecidableEq, Repr

/-- The initial state: empty queue, `idle`, empty history. -/
def initState : AppState :=
  { fileQueue := [], batchState := .idle, hist := { mem := [], persisted := none } }

/-- `handleFiles` (App.tsx:94-112): keep only PDF-typed files, build
records, drop those whose id is already in the queue, append, and reset
the batch state to `idle`. -/
def handleFiles (s : AppState) (files : List FileMeta) : AppState :=
  let newFiles := (files.filter fun f => f.type == "application/pdf").map mkRecord
  let existingIds := s.fileQueue.map (·.id)
  let uniqueNewFiles := newFiles.filter fun f => !(existingIds.contains f.id)
  { s with fileQueue := s.fileQueue ++ uniqueNewFiles, batchState := .idle }

/-- `processBatch` as a whole-state command (App.tsx:134-188): no-op when
no record is pending; otherwise run the loop over the snapshot, merge the
names of the now-successful records into the history (only when there is
at least one, App.tsx:182-185), and end with batch state `done`. -/
def processBatchCmd (o : FileMeta → FileOutcome) (pfail : Bool) (s : AppState) : AppState :=
  if ∃ r ∈ s.fileQueue, r.status = Status.pending then
    let pq := processBatch o s.fileQueue
    let successfulFiles := pq.filter fun f => f.status == Status.success
    { fileQueue := pq
      batchState := .done
      hist :=
        if successfulFiles.isEmpty then s.hist
        else updateHistory pfail s.hist (successfulFiles.map (·.file.name)) }
  else s

/-- The start-batch command as issueable from the UI: the button invoking
`processBatch` is disabled while there is no pending file or the batch
state is `processing` (App.tsx:287-288), in which case clicking it
changes nothing. -/
def startBatch (o : FileMeta → FileOutcome) (pfail : Bool) (s : AppState) : AppState :=
  if (¬ ∃ r ∈ s.fileQueue, r.status = Status.pending) ∨ s.batchState = BatchState.processing then
    s
  else processBatchCmd o pfail s

/-- `removeFile` (App.tsx:130-132) as issueable from the UI: the remove
button is only rendered while the batch state is not `processing`
(App.tsx:276). -/
def removeFile (s : AppState) (idToRemove : String) : AppState :=
  if s.batchState = BatchState.processing then s
  else { s with fileQueue := s.fileQueue.filter fun item => !(item.id == idToRemove) }

/-- `resetState` (App.tsx:190-198): clears the queue and batch state,
leaves the history untouched. -/
def resetState (s : AppState) : AppState :=
  { s with fileQueue := [], batchState := .idle }

/-- One export block (App.tsx:210-211).  JavaScript template
interpolation prints `undefined` for an absent `extractedText`. -/
def exportBlock (r : FileStatus) : String :=
  "========== START: " ++ r.file.name ++ " ==========\n\n" ++
    (match r.extractedText with | some t => t | none => "undefined") ++
    "\n\n========== END: " ++ r.file.name ++ " =========="

/-- The text `handleExportAll` offers for download (App.tsx:206-212), or
`none` when it returns early because no record is successful. -/
def exportContent (q : List FileStatus) : Option String :=
  let successfulFiles := q.filter fun f => f.status == Status.success
  if successfulFiles.isEmpty then none
  else some (String.intercalate "\n\n\n" (successfulFiles.map exportBlock))

/-- `handleExportAll` as a command: it reads `fileQueue`, mutates nothing,
and produces the optional download content. -/
def handleExportAll (s : AppState) : AppState × Option String :=
  (s, exportContent s.fileQueue)

/-- Look a record up by id, as the queue renders records keyed by id. -/
def findById (q : List FileStatus) (i : String) : Option FileStatus :=
  q.find? fun r => r.id == i

/-- One snapshot step of the loop, seen from a single working-copy item:
if the snapshot record `r` is pending and the item's id matches, the
item receives `r`'s outcome. -/
def stepUpd (o : FileMeta → FileOutcome) (acc r : FileStatus) : FileStatus :=
  if r.status = Status.pending then
    (if acc.id = r.id then applyOutcome (o r.file) acc else acc)
  else acc

/-- Cumulative effect of the whole snapshot on one working-copy item. -/
def batchUpdate (o : FileMeta → FileOutcome) (rs : List FileStatus) (x : FileStatus) :
    FileStatus :=
  rs.foldl (stepUpd o) x

/-- Field/status invariant of a queue: extracted text only on success
records, page progress never on pending records. -/
def queueInv (q : List FileStatus) : Prop :=
  ∀ r ∈ q, (r.extractedText.isSome → r.status = Status.success) ∧
    (r.pageProgress.isSome → r.status ≠ Status.pending)

/-- A 2-page PDF file, the spec's concrete scenario. -/
def metaA : FileMeta :=
  { name := "A.pdf", lastModified := 1, size := 100, type := "application/pdf" }

/-- A PDF file whose render call will fail in the isolation scenario. -/
def metaB : FileMeta :=
  { name := "B.pdf", lastModified := 2, size := 200, type := "application/pdf" }

/-- A third PDF file for the isolation scenario. -/
def metaC : FileMeta :=
  { name := "C.pdf", lastModified := 3, size := 300, type := "application/pdf" }

/-- A PDF file whose renderer reports zero pages. -/
def metaZ : FileMeta :=
  { name := "Z.pdf", lastModified := 4, size := 400, type := "application/pdf" }

/-- Oracle of the concrete scenario: `A.pdf` has two pages recognised as
`"Hello"` and `"World"`. -/
def oHW : FileMeta → FileOutcome := fun f =>
  if f.name = "A.pdf" then .ok [.ok "Hello", .ok "World"] else .error "?"

/-- Oracle of the isolation scenario: the render call for `B.pdf`
throws, every other file has one page recognised as `"text"`. -/
def oIso : FileMeta → FileOutcome := fun f =>
  if f.name = "B.pdf" then .error "boom" else .ok [.ok "text"]

/-- Oracle for the zero-page scenario. -/
def oZero : FileMeta → FileOutcome := fun _ => .ok []

/-- Oracle on which every render call throws. -/
def oFail : FileMeta → FileOutcome := fun _ => .error "x"

/-- Queue state after submitting `A.pdf`. -/
def s1 : AppState := handleFiles initState [metaA]

/-- State after running the batch on `s1` with the two-page oracle. -/
def s2 : AppState := processBatchCmd oHW false s1

/-- Queue state after submitting the three isolation-scenario files. -/
def sABC : AppState := handleFiles initState [metaA, metaB, metaC]

/-- Queue state after submitting the zero-page file. -/
def sZ : AppState := handleFiles initState [metaZ]

/-- A state whose batch is mid-run. -/
def procState : AppState :=
  { fileQueue := [mkRecord metaA], batchState := .processing,
    hist := { mem := [], persisted := none } }

/-- A mixed-status queue: a pending record between two terminal ones. -/
def qMix : List FileStatus :=
  [{ mkRecord metaA with status := .success, extractedText := some "done" },
   mkRecord metaB,
   { mkRecord metaC with status := .error }]

/-- A small concrete history store. -/
def histW : HistStore := { mem := ["a.pdf"], persisted := some ["a.pdf"] }

/-! ### Helper lemmas about the page loop and per-file outcome -/

/-- The page loop never changes a record's id. -/
theorem pageLoop_id (total : Nat) :
    ∀ (i : Nat) (rs : List PageResult) (r : FileStatus) (acc : String),
      (pageLoop total i rs r acc).id = r.id := by
  intro i rs
  induction rs generalizing i with
  | nil => intro r acc; rfl
  | cons res rest ih =>
    intro r acc
    cases res with
    | ok t => simpa [pageLoop] using ih (i + 1) _ _
    | error m => rfl

/-- With no failing page, the loop ends the record in `success`. -/
theorem pageLoop_status_ok (total : Nat) :
    ∀ (i : Nat) (rs : List PageResult) (r : FileStatus) (acc : String),
      firstFailure rs = none → (pageLoop total i rs r acc).status = Status.success := by
  intro i rs
  induction rs generalizing i with
  | nil => intro r acc _; rfl
  | cons res rest ih =>
    intro r acc h
    cases res with
    | ok t => simpa [pageLoop] using ih (i + 1) _ _ (by simpa [firstFailure] using h)
    | error m => simp [firstFailure] at h

/-- A failing page ends the record in `error` carrying the thrown
message, and page progress points at the failing page. -/
theorem pageLoop_status_fail (total : Nat) :
    ∀ (i : Nat) (rs : List PageResult) (r : FileStatus) (acc : String) (m : String),
      firstFailure rs = some m →
      (pageLoop total i rs r acc).status = Status.error ∧
        (pageLoop total i rs r acc).message = m := by
  intro i rs
  induction rs generalizing i with
  | nil => intro r acc m h; simp [firstFailure] at h
  | cons res rest ih =>
    intro r acc m h
    cases res with
    | ok t => simpa [pageLoop] using ih (i + 1) _ _ m (by simpa [firstFailure] using h)
    | error m' =>
      simp only [firstFailure, Option.some.injEq] at h
      subst h
      exact ⟨rfl, rfl⟩

/-- A failing run never writes `extractedText`. -/
theorem pageLoop_text_fail (total : Nat) :
    ∀ (i : Nat) (rs : List PageResult) (r : FileStatus) (acc : String) (m : String),
      firstFailure rs = some m →
      (pageLoop total i rs r acc).extractedText = r.extractedText := by
  intro i rs
  induction rs generalizing i with
  | nil => intro r acc m h; simp [firstFailure] at h
  | cons res rest ih =>
    intro r acc m h
    cases res with
    | ok t => simpa [pageLoop] using ih (i + 1) _ _ m (by simpa [firstFailure] using h)
    | error m' => rfl

/-- `applyOutcome` never changes a record's id. -/
theorem applyOutcome_id (oc : FileOutcome) (r : FileStatus) :
    (applyOutcome oc r).id = r.id := by
  cases oc with
  | error m => rfl
  | ok pages => simpa [applyOutcome] using pageLoop_id pages.length 1 pages _ ""

/-- A fully successful outcome ends the record in `success`. -/
theorem applyOutcome_status_ok (oc : FileOutcome) (r : FileStatus)
    (h : outcomeFailMsg oc = none) : (applyOutcome oc r).status = Status.success := by
  cases oc with
  | error m => simp [outcomeFailMsg] at h
  | ok pages =>
    simpa [applyOutcome] using
      pageLoop_status_ok pages.length 1 pages _ "" (by simpa [outcomeFailMsg] using h)

/-- A failing outcome ends the record in `error` with the thrown
message, whether the render call or a page recognition threw. -/
theorem applyOutcome_status_fail (oc : FileOutcome) (r : FileStatus) (m : String)
    (h : outcomeFailMsg oc = some m) :
    (applyOutcome oc r).status = Status.error ∧ (applyOutcome oc r).message = m := by
  cases oc with
  | error m' =>
    simp only [outcomeFailMsg, Option.some.injEq] at h
    subst h
    exact ⟨rfl, rfl⟩
  | ok pages =>
    simpa [applyOutcome] using
      pageLoop_status_fail pages.length 1 pages _ "" m (by simpa [outcomeFailMsg] using h)

/-- Outcome application on a record without extracted text yields a
terminal record whose extracted text, if present, witnesses `success`. -/
theorem applyOutcome_inv (oc : FileOutcome) (r : FileStatus)
    (htext : r.extractedText = none) :
    ((applyOutcome oc r).extractedText.isSome → (applyOutcome oc r).status = Status.success) ∧
      (applyOutcome oc r).status ≠ Status.pending := by
  cases hoc : outcomeFailMsg oc with
  | none =>
    have hs := applyOutcome_status_ok oc r hoc
    exact ⟨fun _ => hs, by simp [hs]⟩
  | some m =>
    have hs := applyOutcome_status_fail oc r m hoc
    refine ⟨?_, by simp [hs.1]⟩
    intro hsome
    exfalso
    cases oc with
    | error m' =>
      simp [applyOutcome, htext] at hsome
    | ok pages =>
      rw [applyOutcome] at hsome
      rw [pageLoop_text_fail pages.length 1 pages _ "" m
        (by simpa [outcomeFailMsg] using hoc)] at hsome
      simp [htext] at hsome

/-! ### The loop as a per-item map over the snapshot -/

/-- The working copy of the loop evolves by mapping the cumulative
per-item update over it. -/
theorem batchLoop_eq_map (o : FileMeta → FileOutcome) (rs : List FileStatus) :
    ∀ pq : List FileStatus, batchLoop o rs pq = pq.map (batchUpdate o rs) := by
  induction rs with
  | nil =>
    intro pq
    have h : ∀ x ∈ pq, batchUpdate o [] x = id x := fun x _ => rfl
    rw [List.map_congr_left h, List.map_id]
    rfl
  | cons r rest ih =>
    intro pq
    by_cases hp : r.status = Status.pending
    · rw [batchLoop, if_pos hp, ih, List.map_map]
      refine List.map_congr_left ?_
      intro x _
      show batchUpdate o rest (if x.id = r.id then applyOutcome (o r.file) x else x) =
        batchUpdate o (r :: rest) x
      simp only [batchUpdate, List.foldl_cons]
      have h : stepUpd o x r = if x.id = r.id then applyOutcome (o r.file) x else x := by
        simp [stepUpd, hp]
      rw [h]
    · rw [batchLoop, if_neg hp, ih]
      refine List.map_congr_left ?_
      intro x _
      show batchUpdate o rest x = batchUpdate o (r :: rest) x
      simp only [batchUpdate, List.foldl_cons]
      have h : stepUpd o x r = x := by simp [stepUpd, hp]
      rw [h]

/-- A working-copy item whose id matches no snapshot record is left
alone. -/
theorem batchUpdate_fixed (o : FileMeta → FileOutcome) (rs : List FileStatus)
    (x : FileStatus) (h : ∀ r ∈ rs, r.id ≠ x.id) : batchUpdate o rs x = x := by
  induction rs with
  | nil => rfl
  | cons r rest ih =>
    show List.foldl (stepUpd o) x (r :: rest) = x
    rw [List.foldl_cons]
    have hstep : stepUpd o x r = x := by
      have hne : ¬ x.id = r.id := fun heq => h r (List.mem_cons_self r rest) heq.symm
      simp [stepUpd, hne]
    rw [hstep]
    exact ih fun r' hr' => h r' (List.mem_cons_of_mem r hr')

/-- With pairwise-distinct ids, the cumulative update of a queue member
is exactly: its own outcome if it was pending, itself otherwise. -/
theorem batchUpdate_eq (o : FileMeta → FileOutcome) (q : List FileStatus)
    (x : FileStatus) (hnd : (q.map (·.id)).Nodup) (hx : x ∈ q) :
    batchUpdate o q x =
      if x.status = Status.pending then applyOutcome (o x.file) x else x := by
  induction q with
  | nil => cases hx
  | cons a q ih =>
    rw [List.map_cons, List.nodup_cons] at hnd
    rcases List.mem_cons.mp hx with rfl | hx'
    · have hrest : ∀ r ∈ q, r.id ≠ x.id := by
        intro r hr heq
        exact hnd.1 (heq ▸ List.mem_map_of_mem (·.id) hr)
      show List.foldl (stepUpd o) x (x :: q) = _
      rw [List.foldl_cons]
      have hstep : stepUpd o x x =
          if x.status = Status.pending then applyOutcome (o x.file) x else x := by
        simp [stepUpd]
      rw [hstep]
      by_cases hp : x.status = Status.pending
      · simp only [if_pos hp]
        refine batchUpdate_fixed o q _ ?_
        intro r hr
        rw [applyOutcome_id]
        exact hrest r hr
      · simp only [if_neg hp]
        exact batchUpdate_fixed o q x hrest
    · show List.foldl (stepUpd o) x (a :: q) = _
      rw [List.foldl_cons]
      have hax : ¬ x.id = a.id := by
        intro heq
        exact hnd.1 (heq ▸ List.mem_map_of_mem (·.id) hx')
      have hstep : stepUpd o x a = x := by simp [stepUpd, hax]
      rw [hstep]
      exact ih hnd.2 hx'

/-- With pairwise-distinct ids the pipeline is a pointwise map over the
snapshot: every pending record receives its own file's outcome, every
other record is untouched. -/
theorem processBatch_eq_map (o : FileMeta → FileOutcome) (q : List FileStatus)
    (hnd : (q.map (·.id)).Nodup) :
    processBatch o q =
      q.map fun r =>
        if r.status = Status.pending then applyOutcome (o r.file) r else r := by
  rw [processBatch, batchLoop_eq_map]
  exact List.map_congr_left fun r hr => batchUpdate_eq o q r hnd hr

/-! ### Lookup lemmas -/

/-- Lookup commutes with an id-preserving map over the queue. -/
theorem findById_map_of_id (f : FileStatus → FileStatus)
    (hf : ∀ r, (f r).id = r.id) (q : List FileStatus) (i : String) :
    findById (q.map f) i = (findById q i).map f := by
  induction q with
  | nil => rfl
  | cons a q ih =>
    cases h : (a.id == i) with
    | true =>
      have h1 : findById ((a :: q).map f) i = some (f a) := by
        refine List.find?_cons_of_pos _ ?_
        rw [hf a]
        exact h
      have h2 : findById (a :: q) i = some a := List.find?_cons_of_pos _ h
      rw [h1, h2]
      rfl
    | false =>
      have h1 : findById ((a :: q).map f) i = findById (q.map f) i := by
        refine List.find?_cons_of_neg _ ?_
        rw [hf a, h]
        simp
      have h2 : findById (a :: q) i = findById q i := by
        refine List.find?_cons_of_neg _ ?_
        rw [h]
        simp
      rw [h1, h2]
      exact ih

/-- With pairwise-distinct ids, looking a member's id up finds exactly
that member. -/
theorem findById_self (q : List FileStatus) (r : FileStatus)
    (hnd : (q.map (·.id)).Nodup) (hr : r ∈ q) : findById q r.id = some r := by
  induction q with
  | nil => cases hr
  | cons a q ih =>
    rw [List.map_cons, List.nodup_cons] at hnd
    rcases List.mem_cons.mp hr with rfl | hr'
    · exact List.find?_cons_of_pos _ (by simp)
    · have hne : ¬ ((a.id == r.id) = true) := by
        simp only [beq_iff_eq]
        intro heq
        exact hnd.1 (heq ▸ List.mem_map_of_mem (·.id) hr')
      have h1 : findById (a :: q) r.id = findById q r.id :=
        List.find?_cons_of_neg _ hne
      rw [h1]
      exact ih hnd.2 hr'

/-! ### De-duplication lemmas -/

/-- Membership in the de-duplicated list. -/
theorem mem_dedupFirstAux (l : List String) :
    ∀ (seen : List String) (x : String),
      x ∈ dedupFirstAux seen l ↔ (x ∈ l ∧ x ∉ seen) := by
  induction l with
  | nil => intro seen x; simp [dedupFirstAux]
  | cons a l ih =>
    intro seen x
    by_cases ha : a ∈ seen
    · rw [dedupFirstAux, if_pos ha, ih]
      constructor
      · rintro ⟨h1, h2⟩
        exact ⟨List.mem_cons_of_mem a h1, h2⟩
      · rintro ⟨h1, h2⟩
        rcases List.mem_cons.mp h1 with rfl | h1'
        · exact absurd ha h2
        · exact ⟨h1', h2⟩
    · rw [dedupFirstAux, if_neg ha]
      constructor
      · intro hmem
        rcases List.mem_cons.mp hmem with rfl | hmem'
        · exact ⟨List.mem_cons_self x l, ha⟩
        · rcases (ih (a :: seen) x).mp hmem' with ⟨h1, h2⟩
          refine ⟨List.mem_cons_of_mem a h1, ?_⟩
          intro hs
          exact h2 (List.mem_cons_of_mem a hs)
      · rintro ⟨h1, h2⟩
        rcases List.mem_cons.mp h1 with rfl | h1'
        · exact List.mem_cons_self x _
        · by_cases hxa : x = a
          · exact hxa ▸ List.mem_cons_self a _
          · refine List.mem_cons_of_mem a ((ih (a :: seen) x).mpr ⟨h1', ?_⟩)
            intro hs
            rcases List.mem_cons.mp hs with h | h
            · exact hxa h
            · exact h2 h

/-- The de-duplicated list has no duplicates. -/
theorem nodup_dedupFirstAux (l : List String) :
    ∀ seen : List String, (dedupFirstAux seen l).Nodup := by
  induction l with
  | nil => intro seen; simp [dedupFirstAux]
  | cons a l ih =>
    intro seen
    by_cases ha : a ∈ seen
    · rw [dedupFirstAux, if_pos ha]
      exact ih seen
    · rw [dedupFirstAux, if_neg ha]
      refine List.nodup_cons.mpr ⟨?_, ih (a :: seen)⟩
      intro hmem
      exact ((mem_dedupFirstAux l (a :: seen) a).mp hmem).2 (List.mem_cons_self a seen)

/-- A list all of whose elements were already seen de-duplicates to
nothing. -/
theorem dedupFirstAux_all_seen (l : List String) :
    ∀ seen : List String, (∀ x ∈ l, x ∈ seen) → dedupFirstAux seen l = [] := by
  induction l with
  | nil => intro seen _; rfl
  | cons a l ih =>
    intro seen h
    rw [dedupFirstAux, if_pos (h a (List.mem_cons_self a l))]
    exact ih seen fun x hx => h x (List.mem_cons_of_mem a hx)

/-- De-duplicating `h ++ ns` gives back `h` when `h` is already
duplicate-free, disjoint from `seen`, and `ns` adds nothing new. -/
theorem dedupFirstAux_append_eq (h : List String) :
    ∀ (seen ns : List String), h.Nodup → (∀ x ∈ h, x ∉ seen) →
      (∀ x ∈ ns, x ∈ seen ∨ x ∈ h) → dedupFirstAux seen (h ++ ns) = h := by
  induction h with
  | nil =>
    intro seen ns _ _ hsub
    rw [List.nil_append]
    refine dedupFirstAux_all_seen ns seen ?_
    intro x hx
    rcases hsub x hx with h1 | h2
    · exact h1
    · cases h2
  | cons a h ih =>
    intro seen ns hnd hdisj hsub
    rw [List.nodup_cons] at hnd
    have ha : a ∉ seen := hdisj a (List.mem_cons_self a h)
    rw [List.cons_append, dedupFirstAux, if_neg ha]
    congr 1
    refine ih (a :: seen) ns hnd.2 ?_ ?_
    · intro x hx hmem
      rcases List.mem_cons.mp hmem with rfl | hs
      · exact hnd.1 hx
      · exact hdisj x (List.mem_cons_of_mem a hx) hs
    · intro x hx
      rcases hsub x hx with hs | hh
      · exact Or.inl (List.mem_cons_of_mem a hs)
      · rcases List.mem_cons.mp hh with rfl | hh'
        · exact Or.inl (List.mem_cons_self x seen)
        · exact Or.inr hh'

/-- The merged history has no duplicates. -/
theorem mergeNames_nodup (h names : List String) : (mergeNames h names).Nodup :=
  nodup_dedupFirstAux (h ++ names) []

/-- Membership in the merged history. -/
theorem mem_mergeNames (h names : List String) (x : String) :
    x ∈ mergeNames h names ↔ x ∈ h ∨ x ∈ names := by
  rw [mergeNames, dedupFirst, mem_dedupFirstAux]
  simp

/-- Merging names that are all already present leaves a duplicate-free
history unchanged. -/
theorem mergeNames_eq_self (h names : List String) (hnd : h.Nodup)
    (hsub : ∀ x ∈ names, x ∈ h) : mergeNames h names = h := by
  rw [mergeNames, dedupFirst]
  refine dedupFirstAux_append_eq h [] names hnd (by simp) ?_
  intro x hx
  exact Or.inr (hsub x hx)

/-! ### Claim theorems -/

/-- C1, counterexample: in the spec's concrete scenario (one 2-page file
`A.pdf`, pages recognised as `"Hello"` and `"World"`), the stored
`extractedText` is not `"Hello\n\n---\n\nWorld"`: the code appends the
separator after every page and the final `trim()` only strips the
trailing newlines, not the dashes. -/
theorem two_page_result_counterexample :
    (findById s2.fileQueue (fileId metaA)).map (·.extractedText) ≠
      some (some "Hello\n\n---\n\nWorld") ∧
    (findById s2.fileQueue (fileId metaA)).map (·.status) = some Status.success := by
  constructor
  · intro h
    have h2 : (findById s2.fileQueue (fileId metaA)).map (·.extractedText) =
        some (some "Hello\n\n---\n\nWorld\n\n---") := by rfl
    rw [h2] at h
    simp at h
  · rfl

/-- C1, amended: in the concrete scenario the record ends in `success`
and `extractedText` is `"Hello\n\n---\n\nWorld\n\n---"` — each page's
trimmed text followed by the separator `"\n\n---\n\n"`, concatenated,
then trimmed once, which leaves the final separator's dashes. -/
theorem two_page_result_amended :
    (findById s2.fileQueue (fileId metaA)).map (·.extractedText) =
      some (some "Hello\n\n---\n\nWorld\n\n---") ∧
    (findById s2.fileQueue (fileId metaA)).map (·.status) = some Status.success ∧
    s2.batchState = BatchState.done :=
  ⟨rfl, rfl, rfl⟩

/-- C3, counterexample: one selection event containing two files with
identical (name, last-modified, size) produces two queue records with
the same id — `handleFiles` de-duplicates only against the pre-existing
queue, not within the event. -/
theorem duplicate_same_event_counterexample :
    (handleFiles initState [metaA, metaA]).fileQueue.map (·.id) =
      ["A.pdf-1-100", "A.pdf-1-100"] ∧
    ¬ ((handleFiles initState [metaA, metaA]).fileQueue.map (·.id)).Nodup := by
  exact ⟨rfl, by decide⟩

/-- C5, counterexample: after the concrete 2-page success run, the
`success` record still carries `pageProgress = (2, 2)` — the terminal
transitions spread the old record and never clear `pageProgress`. -/
theorem terminal_pageProgress_counterexample :
    (findById s2.fileQueue (fileId metaA)).map (·.pageProgress) =
      some (some (2, 2)) ∧
    (findById s2.fileQueue (fileId metaA)).map (·.status) = some Status.success :=
  ⟨rfl, rfl⟩

/-- C8, counterexample: when the persistent remove throws, `clearHistory`
catches the error before `setHistory([])` runs, so the in-memory history
does *not* become empty. -/
theorem clearHistory_persistence_failure_counterexample :
    (clearHistory true { mem := ["a.pdf"], persisted := some ["a.pdf"] }).mem =
      ["a.pdf"] ∧
    (clearHistory true { mem := ["a.pdf"], persisted := some ["a.pdf"] }).mem ≠ [] := by
  exact ⟨rfl, by decide⟩

/-- C8, amended: a persistence failure never blocks the in-memory merge
of `updateHistory`; for `clearHistory` the in-memory clear happens
exactly when the persistent remove succeeds — a throwing remove leaves
the whole store (memory and persisted copy) unchanged. -/
theorem history_persistence_best_effort_amended (s : HistStore) (names : List String) :
    (updateHistory true s names).mem = (updateHistory false s names).mem ∧
    (updateHistory true s names).mem = mergeNames s.mem names ∧
    (clearHistory false s).mem = [] ∧
    clearHistory true s = s := by
  refine ⟨rfl, rfl, ?_, ?_⟩
  · simp [clearHistory]
  · simp [clearHistory]

/-- C6: while the batch state is `processing`, the start-batch command is
rejected — the button invoking `processBatch` is disabled, so no state
change happens and no second pass over the queue begins. -/
theorem startBatch_rejected_while_processing (o : FileMeta → FileOutcome)
    (pfail : Bool) (s : AppState) (h : s.batchState = BatchState.processing) :
    startBatch o pfail s = s := by
  rw [startBatch, if_pos (Or.inr h)]

/-- Witness for C6 at a concrete mid-run state. -/
theorem startBatch_rejected_while_processing_witness :
    procState.batchState = BatchState.processing ∧
      startBatch oFail false procState = procState :=
  ⟨rfl, startBatch_rejected_while_processing oFail false procState rfl⟩

/-- `List.contains` agrees with membership. -/
theorem contains_iff (l : List String) (a : String) : l.contains a = true ↔ a ∈ l := by
  show l.elem a = true ↔ a ∈ l
  exact List.elem_iff

/-- The per-record pipeline step preserves ids. -/
theorem batchStep_id (o : FileMeta → FileOutcome) (r : FileStatus) :
    (if r.status = Status.pending then applyOutcome (o r.file) r else r).id = r.id := by
  by_cases h : r.status = Status.pending
  · rw [if_pos h, applyOutcome_id]
  · rw [if_neg h]

/-- The loop visits exactly the pending snapshot records, in snapshot
order. -/
theorem batchVisited_eq (q : List FileStatus) :
    batchVisited q = (q.filter fun r => r.status == Status.pending).map (·.id) := by
  induction q with
  | nil => rfl
  | cons r rest ih =>
    by_cases hp : r.status = Status.pending
    · rw [batchVisited, if_pos hp, List.filter_cons_of_pos (by simp [hp]), List.map_cons, ih]
    · rw [batchVisited, if_neg hp, List.filter_cons_of_neg (by simp [hp]), ih]

/-- C7: history has set semantics — merging de-duplicates, merging the
same name in two separate batch completions leaves exactly one entry for
it, merging names that are already present changes nothing, and the
export output does not depend on the history at all (it is a function of
the queue alone). -/
theorem history_set_semantics (st : HistStore) (names : List String) (n : String)
    (b b1 b2 : Bool) (s s' : AppState)
    (hnd : st.mem.Nodup) (hsub : ∀ x ∈ names, x ∈ st.mem)
    (hq : s.fileQueue = s'.fileQueue) :
    (updateHistory b st names).mem.Nodup ∧
    (updateHistory b2 (updateHistory b1 st [n]) [n]).mem.count n = 1 ∧
    (updateHistory b st names).mem = st.mem ∧
    (handleExportAll s).2 = (handleExportAll s').2 := by
  refine ⟨mergeNames_nodup _ _, ?_, mergeNames_eq_self _ _ hnd hsub, ?_⟩
  · have hmem : n ∈ (updateHistory b2 (updateHistory b1 st [n]) [n]).mem := by
      show n ∈ mergeNames _ [n]
      rw [mem_mergeNames]
      exact Or.inr (List.mem_cons_self n [])
    exact List.count_eq_one_of_mem (mergeNames_nodup _ _) hmem
  · show exportContent s.fileQueue = exportContent s'.fileQueue
    rw [hq]

/-- Witness for C7 at a concrete history store. -/
theorem history_set_semantics_witness :
    (updateHistory false histW ["a.pdf"]).mem.Nodup ∧
    (updateHistory false (updateHistory false histW ["x.pdf"]) ["x.pdf"]).mem.count
      "x.pdf" = 1 ∧
    (updateHistory false histW ["a.pdf"]).mem = histW.mem ∧
    (handleExportAll initState).2 = (handleExportAll initState).2 :=
  history_set_semantics histW ["a.pdf"] "x.pdf" false false false initState initState
    (by decide) (by decide) rfl

/-- C9: export is a no-op exactly when no record is successful;
otherwise its output is the successful records in queue order, each as a
delimited block, joined by blank lines; the command mutates no state, so
exporting twice yields identical output. -/
theorem exportAll_props (s : AppState) (q : List FileStatus) :
    (exportContent q = none ↔ ∀ r ∈ q, r.status ≠ Status.success) ∧
    ((∃ r ∈ q, r.status = Status.success) →
      exportContent q = some (String.intercalate "\n\n\n"
        ((q.filter fun f => f.status == Status.success).map exportBlock))) ∧
    (handleExportAll s).1 = s ∧
    (handleExportAll (handleExportAll s).1).2 = (handleExportAll s).2 := by
  have hiff : ((q.filter fun f => f.status == Status.success) = []) ↔
      ∀ r ∈ q, r.status ≠ Status.success := by
    rw [List.filter_eq_nil_iff]
    simp
  by_cases he : (q.filter fun f => f.status == Status.success).isEmpty
  · have hnone : exportContent q = none := by
      rw [exportContent]
      simp [he]
    have hall : ∀ r ∈ q, r.status ≠ Status.success := hiff.mp (List.isEmpty_iff.mp he)
    refine ⟨Iff.intro (fun _ => hall) (fun _ => hnone), ?_, rfl, rfl⟩
    rintro ⟨r, hr, hs⟩
    exact absurd hs (hall r hr)
  · have hsome : exportContent q = some (String.intercalate "\n\n\n"
        ((q.filter fun f => f.status == Status.success).map exportBlock)) := by
      rw [exportContent]
      simp [he]
    refine ⟨?_, fun _ => hsome, rfl, rfl⟩
    constructor
    · intro h
      rw [hsome] at h
      cases h
    · intro hall
      exact absurd (List.isEmpty_iff.mpr (hiff.mpr hall)) he

/-- Witness for C9 at the concrete post-batch state. -/
theorem exportAll_props_witness :
    (exportContent s2.fileQueue = none ↔ ∀ r ∈ s2.fileQueue, r.status ≠ Status.success) ∧
    exportContent s2.fileQueue = some (String.intercalate "\n\n\n"
      ((s2.fileQueue.filter fun f => f.status == Status.success).map exportBlock)) ∧
    (handleExportAll s2).1 = s2 :=
  ⟨(exportAll_props s2 s2.fileQueue).1,
   (exportAll_props s2 s2.fileQueue).2.1 (by decide),
   (exportAll_props s2 s2.fileQueue).2.2.1⟩

/-- C4: the pipeline visits exactly the records that were pending in the
snapshot taken when the loop began, in the queue's original insertion
order, and (for pairwise-distinct ids) the resulting queue is the
pointwise image of that snapshot — skipped records are unchanged and
records not in the snapshot play no part in the pass. -/
theorem processBatch_order_snapshot (o : FileMeta → FileOutcome) (q : List FileStatus)
    (hnd : (q.map (·.id)).Nodup) :
    batchVisited q = ((q.filter fun r => r.status == Status.pending).map (·.id)) ∧
    processBatch o q = q.map fun r =>
      if r.status = Status.pending then applyOutcome (o r.file) r else r :=
  ⟨batchVisited_eq q, processBatch_eq_map o q hnd⟩

/-- Witness for C4 on a concrete mixed-status queue. -/
theorem processBatch_order_snapshot_witness :
    batchVisited qMix = ((qMix.filter fun r => r.status == Status.pending).map (·.id)) ∧
    processBatch oIso qMix = qMix.map fun r =>
      if r.status = Status.pending then applyOutcome (oIso r.file) r else r :=
  processBatch_order_snapshot oIso qMix (by decide)

/-- C2: error isolation — when one pending file's processing throws (at
render or at any page) and every other pending file's outcome is fully
successful, the failing record ends in `error` carrying the thrown
message, every other pending record ends in `success`, the loop runs past
the failure, and the batch state still reaches `done`. -/
theorem batch_error_isolation (o : FileMeta → FileOutcome) (pfail : Bool) (s : AppState)
    (rbad : FileStatus) (msg : String)
    (hnd : (s.fileQueue.map (·.id)).Nodup)
    (hmem : rbad ∈ s.fileQueue) (hpend : rbad.status = Status.pending)
    (hfail : outcomeFailMsg (o rbad.file) = some msg)
    (hothers : ∀ r ∈ s.fileQueue, r.id ≠ rbad.id → r.status = Status.pending →
      outcomeFailMsg (o r.file) = none) :
    (∃ rec, findById (processBatchCmd o pfail s).fileQueue rbad.id = some rec ∧
      rec.status = Status.error ∧ rec.message = msg) ∧
    (∀ r ∈ s.fileQueue, r.status = Status.pending → r.id ≠ rbad.id →
      ∃ rec, findById (processBatchCmd o pfail s).fileQueue r.id = some rec ∧
        rec.status = Status.success) ∧
    (processBatchCmd o pfail s).batchState = BatchState.done := by
  have hex : ∃ r ∈ s.fileQueue, r.status = Status.pending := ⟨rbad, hmem, hpend⟩
  have hq : (processBatchCmd o pfail s).fileQueue = processBatch o s.fileQueue := by
    rw [processBatchCmd, if_pos hex]
  have hbs : (processBatchCmd o pfail s).batchState = BatchState.done := by
    rw [processBatchCmd, if_pos hex]
  have hmap := processBatch_eq_map o s.fileQueue hnd
  refine ⟨?_, ?_, hbs⟩
  · refine ⟨applyOutcome (o rbad.file) rbad, ?_,
      (applyOutcome_status_fail _ _ _ hfail).1, (applyOutcome_status_fail _ _ _ hfail).2⟩
    rw [hq, hmap, findById_map_of_id _ (fun x => batchStep_id o x),
      findById_self s.fileQueue rbad hnd hmem]
    simp [hpend]
  · intro r hr hps hne
    refine ⟨applyOutcome (o r.file) r, ?_,
      applyOutcome_status_ok _ _ (hothers r hr hne hps)⟩
    rw [hq, hmap, findById_map_of_id _ (fun x => batchStep_id o x),
      findById_self s.fileQueue r hnd hr]
    simp [hps]

/-- Witness for C2: three files, the middle one's render call throws. -/
theorem batch_error_isolation_witness :
    (∃ rec, findById (processBatchCmd oIso false sABC).fileQueue
        (mkRecord metaB).id = some rec ∧
      rec.status = Status.error ∧ rec.message = "boom") ∧
    (∀ r ∈ sABC.fileQueue, r.status = Status.pending → r.id ≠ (mkRecord metaB).id →
      ∃ rec, findById (processBatchCmd oIso false sABC).fileQueue r.id = some rec ∧
        rec.status = Status.success) ∧
    (processBatchCmd oIso false sABC).batchState = BatchState.done :=
  batch_error_isolation oIso false sABC (mkRecord metaB) "boom"
    (by decide) (by decide) (by decide) (by decide) (by decide)

/-- C10: a pending record whose renderer reports zero pages skips the
page loop entirely and ends in `success` with empty extracted text and
no page progress. -/
theorem zero_pages_success (o : FileMeta → FileOutcome) (pfail : Bool) (s : AppState)
    (r : FileStatus)
    (hnd : (s.fileQueue.map (·.id)).Nodup) (hr : r ∈ s.fileQueue)
    (hpend : r.status = Status.pending) (hpp : r.pageProgress = none)
    (hzero : o r.file = .ok []) :
    ∃ rec, findById (processBatchCmd o pfail s).fileQueue r.id = some rec ∧
      rec.status = Status.success ∧ rec.extractedText = some "" ∧
      rec.pageProgress = none := by
  have hex : ∃ x ∈ s.fileQueue, x.status = Status.pending := ⟨r, hr, hpend⟩
  have hq : (processBatchCmd o pfail s).fileQueue = processBatch o s.fileQueue := by
    rw [processBatchCmd, if_pos hex]
  have hmap := processBatch_eq_map o s.fileQueue hnd
  refine ⟨applyOutcome (o r.file) r, ?_, ?_, ?_, ?_⟩
  · rw [hq, hmap, findById_map_of_id _ (fun x => batchStep_id o x),
      findById_self s.fileQueue r hnd hr]
    simp [hpend]
  · rw [hzero]
    rfl
  · rw [hzero]
    rfl
  · rw [hzero]
    simpa [applyOutcome, pageLoop] using hpp

/-- Witness for C10 on a concrete zero-page file. -/
theorem zero_pages_success_witness :
    ∃ rec, findById (processBatchCmd oZero false sZ).fileQueue
        (mkRecord metaZ).id = some rec ∧
      rec.status = Status.success ∧ rec.extractedText = some "" ∧
      rec.pageProgress = none :=
  zero_pages_success oZero false sZ (mkRecord metaZ)
    (by decide) (by decide) (by decide) (by decide) rfl

/-- A selection event all of whose PDF files are already queued leaves
the queue unchanged. -/
theorem handleFiles_queue_unchanged (s : AppState) (files : List FileMeta)
    (h : ∀ g ∈ files, g.type = "application/pdf" →
      fileId g ∈ s.fileQueue.map (·.id)) :
    (handleFiles s files).fileQueue = s.fileQueue := by
  have hqueue : (handleFiles s files).fileQueue =
      s.fileQueue ++ ((files.filter fun g => g.type == "application/pdf").map
        mkRecord).filter
          (fun r => !((s.fileQueue.map (·.id)).contains r.id)) := rfl
  rw [hqueue]
  have hnil : (((files.filter fun g => g.type == "application/pdf").map
      mkRecord).filter
        (fun r => !((s.fileQueue.map (·.id)).contains r.id))) = [] := by
    rw [List.filter_eq_nil_iff]
    intro r hr
    rcases List.mem_map.mp hr with ⟨g, hg, rfl⟩
    rcases List.mem_filter.mp hg with ⟨hgf, hgp⟩
    have hpdf : g.type = "application/pdf" := by simpa using hgp
    have hmem : (mkRecord g).id ∈ s.fileQueue.map (·.id) := h g hgf hpdf
    have hcon : ((s.fileQueue.map (·.id)).contains (mkRecord g).id) = true :=
      (contains_iff _ _).mpr hmem
    intro hbad
    rw [hcon] at hbad
    exact absurd hbad (by decide)
  rw [hnil, List.append_nil]

/-- After a selection event, the id of each of its PDF files is in the
queue. -/
theorem handleFiles_id_mem (s : AppState) (files : List FileMeta) (g : FileMeta)
    (hg : g ∈ files) (hpdf : g.type = "application/pdf") :
    fileId g ∈ (handleFiles s files).fileQueue.map (·.id) := by
  have hqueue : (handleFiles s files).fileQueue =
      s.fileQueue ++ ((files.filter fun g => g.type == "application/pdf").map
        mkRecord).filter
          (fun r => !((s.fileQueue.map (·.id)).contains r.id)) := rfl
  rw [hqueue, List.map_append]
  by_cases hc : fileId g ∈ s.fileQueue.map (·.id)
  · exact List.mem_append_left _ hc
  · refine List.mem_append_right _ ?_
    have hrec : mkRecord g ∈ ((files.filter fun g => g.type == "application/pdf").map
        mkRecord).filter (fun r => !((s.fileQueue.map (·.id)).contains r.id)) := by
      refine List.mem_filter.mpr
        ⟨List.mem_map_of_mem mkRecord (List.mem_filter.mpr ⟨hg, by simp [hpdf]⟩), ?_⟩
      have hcon : ((s.fileQueue.map (·.id)).contains (mkRecord g).id) = false := by
        rw [← Bool.not_eq_true, contains_iff]
        exact hc
      rw [hcon]
      rfl
    exact List.mem_map_of_mem (fun r : FileStatus => r.id) hrec

/-- C3, amended: `handleFiles` de-duplicates new records against the ids
already in the queue, so distinct-id uniqueness is preserved across
selection events provided each single event contains no two files with
the same (name, last-modified, size); and submitting the same file again
in a later event leaves the queue unchanged.  (Duplicates inside one
event are *not* collapsed — see the counterexample.) -/
theorem handleFiles_dedup_amended (s : AppState) (files : List FileMeta) (f : FileMeta)
    (hq : (s.fileQueue.map (·.id)).Nodup)
    (hf : ((files.filter fun g => g.type == "application/pdf").map fileId).Nodup) :
    ((handleFiles s files).fileQueue.map (·.id)).Nodup ∧
    (handleFiles (handleFiles s [f]) [f]).fileQueue = (handleFiles s [f]).fileQueue := by
  constructor
  · have hqueue : (handleFiles s files).fileQueue =
        s.fileQueue ++ ((files.filter fun g => g.type == "application/pdf").map
          mkRecord).filter
            (fun r => !((s.fileQueue.map (·.id)).contains r.id)) := rfl
    rw [hqueue, List.map_append, List.nodup_append]
    refine ⟨hq, ?_, ?_⟩
    · have hids : (((files.filter fun g => g.type == "application/pdf").map
          mkRecord).map (·.id)) =
            (files.filter fun g => g.type == "application/pdf").map fileId := by
        rw [List.map_map]
        rfl
      refine List.Nodup.sublist ?_ (hids ▸ hf)
      exact (List.filter_sublist _).map _
    · intro a ha1 ha2
      rcases List.mem_map.mp ha2 with ⟨r, hr, rfl⟩
      rcases List.mem_filter.mp hr with ⟨-, hcond⟩
      rw [Bool.not_eq_true'] at hcond
      have : r.id ∈ s.fileQueue.map (·.id) := ha1
      rw [← contains_iff] at this
      rw [hcond] at this
      cases this
  · refine handleFiles_queue_unchanged (handleFiles s [f]) [f] ?_
    intro g hg hpdf
    rcases List.mem_cons.mp hg with rfl | h0
    · exact handleFiles_id_mem s [g] g (List.mem_cons_self g []) hpdf
    · cases h0

/-- Witness for C3's amended statement on concrete files. -/
theorem handleFiles_dedup_amended_witness :
    (((handleFiles initState [metaA, metaB]).fileQueue.map (·.id)).Nodup) ∧
    (handleFiles (handleFiles initState [metaA]) [metaA]).fileQueue =
      (handleFiles initState [metaA]).fileQueue :=
  handleFiles_dedup_amended initState [metaA, metaB] metaA (by decide) (by decide)

/-- C5, amended: across the queue operations, extracted text is present
only on `success` records; page progress is set only once a record has
entered the page loop and is never cleared afterwards, so it may survive
into the terminal `success`/`error` states — what always holds is that a
`pending` record carries no page progress.  (Stated for queues with
pairwise-distinct ids, the situation every UI-reachable queue without
same-event duplicates is in.) -/
theorem record_fields_invariant_amended (s : AppState) (files : List FileMeta)
    (i : String) (o : FileMeta → FileOutcome) (pfail : Bool)
    (hnd : (s.fileQueue.map (·.id)).Nodup) (hinv : queueInv s.fileQueue) :
    queueInv (handleFiles s files).fileQueue ∧
    queueInv (processBatchCmd o pfail s).fileQueue ∧
    queueInv (removeFile s i).fileQueue ∧
    queueInv (resetState s).fileQueue := by
  refine ⟨?_, ?_, ?_, ?_⟩
  · intro r hr
    have hqueue : (handleFiles s files).fileQueue =
        s.fileQueue ++ ((files.filter fun g => g.type == "application/pdf").map
          mkRecord).filter
            (fun x => !((s.fileQueue.map (·.id)).contains x.id)) := rfl
    rw [hqueue] at hr
    rcases List.mem_append.mp hr with h | h
    · exact hinv r h
    · rcases List.mem_map.mp (List.mem_filter.mp h).1 with ⟨g, -, rfl⟩
      exact ⟨by simp [mkRecord], by simp [mkRecord]⟩
  · by_cases hex : ∃ x ∈ s.fileQueue, x.status = Status.pending
    · have hq : (processBatchCmd o pfail s).fileQueue = processBatch o s.fileQueue := by
        rw [processBatchCmd, if_pos hex]
      rw [hq, processBatch_eq_map o s.fileQueue hnd]
      intro r hr
      rcases List.mem_map.mp hr with ⟨x, hx, rfl⟩
      by_cases hp : x.status = Status.pending
      · have htext : x.extractedText = none := by
          cases hx' : x.extractedText with
          | none => rfl
          | some t =>
            have hs := (hinv x hx).1 (by rw [hx']; rfl)
            rw [hp] at hs
            cases hs
        have h2 := applyOutcome_inv (o x.file) x htext
        rw [if_pos hp]
        exact ⟨h2.1, fun _ => h2.2⟩
      · rw [if_neg hp]
        exact hinv x hx
    · have hid : processBatchCmd o pfail s = s := by
        rw [processBatchCmd, if_neg hex]
      rw [hid]
      exact hinv
  · by_cases hbs : s.batchState = BatchState.processing
    · have hid : removeFile s i = s := by rw [removeFile, if_pos hbs]
      rw [hid]
      exact hinv
    · have hq : (removeFile s i).fileQueue =
          s.fileQueue.filter fun item => !(item.id == i) := by
        rw [removeFile, if_neg hbs]
      rw [hq]
      intro r hr
      exact hinv r (List.mem_filter.mp hr).1
  · intro r hr
    cases hr

/-- Witness for C5's amended invariant at concrete inputs. -/
theorem record_fields_invariant_amended_witness :
    queueInv (handleFiles s1 [metaB]).fileQueue ∧
    queueInv (processBatchCmd oHW false s1).fileQueue ∧
    queueInv (removeFile s1 "x").fileQueue ∧
    queueInv (resetState s1).fileQueue :=
  record_fields_invariant_amended s1 [metaB] "x" oHW false (by decide)
    (by unfold queueInv; decide)
